import Mathlib

/-!
# Verification of the fresh editor's Language-Server synchronization spec

Shallow embedding of the components described in `spec.md` and of the Rust
source files of the repository slice (release checker, semantic highlighter,
i18n runtime backend, and the LSP toggle-desync test harness), together with
proofs settling the frozen claims about them.

Machine integers are modelled as `Nat` (with explicit bounds where Rust's
`u32` parsing can overflow); byte strings are `List Nat`; fallible code
returns `Option`.
-/

set_option maxRecDepth 4000

namespace Fresh

/-! ## Transport Framer (§4.1 of the spec)

The framer itself is not part of this source slice (only the spec describes
it), so it is modelled from the spec's contract: frames are
`"Content-Length: N\r\n\r\n"` followed by `N` payload bytes; `decode`
consumes a byte stream incrementally, suspending only when more bytes are
needed, and fails with a `FramingError` on a malformed header. -/

/-- The ASCII bytes of the header literal `"Content-Length: "`. -/
def headerLit : List Nat := ("Content-Length: ".data).map Char.toNat

/-- The ASCII bytes of the header terminator `"\r\n\r\n"`. -/
def termLit : List Nat := [13, 10, 13, 10]

/-- Is this byte an ASCII decimal digit? -/
def isDigitByte (b : Nat) : Bool := 48 ≤ b && b ≤ 57

/-- Decimal representation of a natural number as ASCII digit bytes
(most significant first). -/
def natToDec (n : Nat) : List Nat :=
  if n < 10 then [48 + n]
  else natToDec (n / 10) ++ [48 + n % 10]
decreasing_by exact Nat.div_lt_self (by omega) (by omega)

/-- Read a decimal number from ASCII digit bytes. -/
def decFromDigits (ds : List Nat) : Nat :=
  List.foldl (fun a b => a * 10 + (b - 48)) 0 ds

/-- Result of matching a literal against the front of a buffer: the
remaining bytes on success, "buffer too short so far", or a definite
mismatch. -/
inductive LitMatch where
  | rest (r : List Nat)
  | short
  | mismatch
deriving DecidableEq

/-- Match a literal byte sequence against the front of a buffer. -/
def matchLit : List Nat → List Nat → LitMatch
  | [], buf => .rest buf
  | _ :: _, [] => .short
  | l :: ls, b :: bs => if b = l then matchLit ls bs else .mismatch

/-- Result of one incremental decode step. -/
inductive DecodeResult where
  | done (payload rest : List Nat)
  | needMore
  | framingError
deriving DecidableEq

/-- Modelled from the spec: the Transport Framer's `decode` (§4.1), absent
from this source slice.  Incrementally parses `"Content-Length: "`, a
decimal length, the `"\r\n\r\n"` terminator and then the declared number of
payload bytes; answers `needMore` whenever the buffer is a prefix of some
valid frame, and `framingError` on a malformed header (non-numeric length or
broken terminator). -/
def decode (buf : List Nat) : DecodeResult :=
  match matchLit headerLit buf with
  | .short => .needMore
  | .mismatch => .framingError
  | .rest r1 =>
    let ds := r1.takeWhile isDigitByte
    let r2 := r1.drop ds.length
    match matchLit termLit r2 with
    | .short => .needMore
    | .mismatch => .framingError
    | .rest r3 =>
      if ds.isEmpty then .framingError
      else if r3.length < decFromDigits ds then .needMore
      else .done (r3.take (decFromDigits ds)) (r3.drop (decFromDigits ds))

/-- Modelled from the spec: the Transport Framer's `encode` (§4.1), absent
from this source slice.  `encode payload` produces the
`"Content-Length: N\r\n\r\n"` header (N = payload length in bytes) followed
by the payload. -/
def encode (payload : List Nat) : List Nat :=
  headerLit ++ natToDec payload.length ++ termLit ++ payload

/-- The editor, seen from the Supervisor/Connection-Actor layer: a set of
live connections plus an "editor process is alive" flag. -/
structure EditorSt where
  conns : List Nat
  alive : Bool
deriving DecidableEq

/-- Modelled from the spec: teardown of a single connection after an
unrecoverable read failure (§4.1, §7); only that connection is removed and
the editor process stays alive. -/
def onFramingFailure (ed : EditorSt) (c : Nat) : EditorSt :=
  { conns := ed.conns.filter (· ≠ c), alive := ed.alive }

/-- Modelled from the spec: how the Connection Actor reacts to one decode
result (§4.1): a `framingError` is treated as an unrecoverable read failure
and tears the connection down; other results leave the editor unchanged. -/
def actorOnDecode (ed : EditorSt) (c : Nat) : DecodeResult → EditorSt
  | .framingError => onFramingFailure ed c
  | _ => ed

/-! ### Framer lemmas -/

theorem matchLit_append (lit r : List Nat) : matchLit lit (lit ++ r) = .rest r := by
  induction lit with
  | nil => rfl
  | cons l ls ih => simpa [matchLit] using ih

theorem natToDec_digits (n : Nat) : ∀ b ∈ natToDec n, isDigitByte b = true := by
  induction n using Nat.strong_induction_on with
  | _ n ih =>
    intro b hb
    rw [natToDec] at hb
    by_cases h : n < 10
    · simp [h] at hb
      subst hb
      simp [isDigitByte]
      omega
    · simp [h] at hb
      rcases hb with hb | hb
      · exact ih (n / 10) (Nat.div_lt_self (by omega) (by omega)) b hb
      · subst hb
        simp [isDigitByte]
        have := Nat.mod_lt n (y := 10) (by omega)
        omega

theorem natToDec_ne_nil (n : Nat) : natToDec n ≠ [] := by
  rw [natToDec]
  by_cases h : n < 10 <;> simp [h]

theorem decFromDigits_append_single (ds : List Nat) (d : Nat) :
    decFromDigits (ds ++ [d]) = 10 * decFromDigits ds + (d - 48) := by
  simp [decFromDigits, List.foldl_append, Nat.mul_comm]

theorem decFromDigits_natToDec (n : Nat) : decFromDigits (natToDec n) = n := by
  induction n using Nat.strong_induction_on with
  | _ n ih =>
    rw [natToDec]
    by_cases h : n < 10
    · simp [h, decFromDigits]
    · simp only [h, if_false]
      rw [decFromDigits_append_single, ih (n / 10) (Nat.div_lt_self (by omega) (by omega))]
      omega

theorem takeWhile_digits_stop (ds : List Nat) (b : Nat) (tail : List Nat)
    (hds : ∀ d ∈ ds, isDigitByte d = true) (hb : isDigitByte b = false) :
    (ds ++ b :: tail).takeWhile isDigitByte = ds := by
  induction ds with
  | nil => simp [List.takeWhile, hb]
  | cons d ds ih =>
    have hd : isDigitByte d = true := hds d (by simp)
    simp only [List.cons_append, List.takeWhile_cons, hd, if_true]
    rw [ih (fun x hx => hds x (by simp [hx]))]

theorem takeWhile_digits_then_term (ds tail : List Nat)
    (hds : ∀ b ∈ ds, isDigitByte b = true) :
    (ds ++ 13 :: tail).takeWhile isDigitByte = ds :=
  takeWhile_digits_stop ds 13 tail hds (by decide)

/-- Decoding a buffer that starts with a complete encoded frame yields
exactly that frame's payload and the remaining bytes. -/
theorem decode_encode_append (payload rest : List Nat) :
    decode (encode payload ++ rest) = .done payload rest := by
  have hbuf : encode payload ++ rest
      = headerLit ++ (natToDec payload.length ++ (13 :: 10 :: 13 :: 10 :: (payload ++ rest))) := by
    simp [encode, termLit]
  have htw := takeWhile_digits_then_term (natToDec payload.length)
      (10 :: 13 :: 10 :: (payload ++ rest)) (natToDec_digits payload.length)
  have hterm : matchLit termLit (13 :: 10 :: 13 :: 10 :: (payload ++ rest))
      = .rest (payload ++ rest) := matchLit_append termLit (payload ++ rest)
  have hne : (natToDec payload.length).isEmpty = false := by
    cases h : natToDec payload.length with
    | nil => exact absurd h (natToDec_ne_nil _)
    | cons a l => rfl
  have hlen : ¬ (payload ++ rest).length < payload.length := by
    simp [List.length_append]
  rw [hbuf]
  unfold decode
  rw [matchLit_append]
  simp only [htw, List.drop_left, hterm, hne, decFromDigits_natToDec, Bool.false_eq_true,
    if_false, hlen, List.take_left, List.drop_left]

/-- A frame header declaring length `n` followed by fewer than `n` payload
bytes makes `decode` suspend (`needMore`) rather than fail. -/
theorem decode_short_payload (n : Nat) (partialPayload : List Nat)
    (hshort : partialPayload.length < n) :
    decode (headerLit ++ natToDec n ++ termLit ++ partialPayload) = .needMore := by
  have hbuf : headerLit ++ natToDec n ++ termLit ++ partialPayload
      = headerLit ++ (natToDec n ++ (13 :: 10 :: 13 :: 10 :: partialPayload)) := by
    simp [termLit]
  have htw := takeWhile_digits_then_term (natToDec n)
      (10 :: 13 :: 10 :: partialPayload) (natToDec_digits n)
  have hterm : matchLit termLit (13 :: 10 :: 13 :: 10 :: partialPayload)
      = .rest partialPayload := matchLit_append termLit partialPayload
  have hne : (natToDec n).isEmpty = false := by
    cases h : natToDec n with
    | nil => exact absurd h (natToDec_ne_nil _)
    | cons a l => rfl
  rw [hbuf]
  unfold decode
  rw [matchLit_append]
  simp only [htw, List.drop_left, hterm, hne, decFromDigits_natToDec, Bool.false_eq_true,
    if_false, hshort, if_true]

/-- After the digit run of the length field, a byte that is neither a digit
nor the carriage return that starts the terminator makes `decode` fail with
a `FramingError` (this covers both a non-numeric length and a missing
terminator). -/
theorem decode_malformed_after_digits (ds : List Nat) (b : Nat) (rest : List Nat)
    (hds : ∀ d ∈ ds, isDigitByte d = true) (hb : isDigitByte b = false) (hcr : b ≠ 13) :
    decode (headerLit ++ ds ++ b :: rest) = .framingError := by
  have hbuf : headerLit ++ ds ++ b :: rest = headerLit ++ (ds ++ b :: rest) := by
    simp
  have htw : (ds ++ b :: rest).takeWhile isDigitByte = ds :=
    takeWhile_digits_stop ds b rest hds hb
  have hterm : matchLit termLit (b :: rest) = .mismatch := by
    simp [matchLit, termLit, hcr]
  rw [hbuf]
  unfold decode
  rw [matchLit_append]
  simp only [htw, List.drop_left, hterm]

/-- A terminator that starts with `\r` but does not continue with `\n`
makes `decode` fail with a `FramingError` (missing terminator). -/
theorem decode_broken_terminator (ds : List Nat) (b : Nat) (rest : List Nat)
    (hds : ∀ d ∈ ds, isDigitByte d = true) (hb : b ≠ 10) :
    decode (headerLit ++ ds ++ 13 :: b :: rest) = .framingError := by
  have hbuf : headerLit ++ ds ++ 13 :: b :: rest = headerLit ++ (ds ++ 13 :: b :: rest) := by
    simp
  have htw : (ds ++ 13 :: b :: rest).takeWhile isDigitByte = ds :=
    takeWhile_digits_then_term ds (b :: rest) hds
  have hterm : matchLit termLit (13 :: b :: rest) = .mismatch := by
    simp [matchLit, termLit, hb]
  rw [hbuf]
  unfold decode
  rw [matchLit_append]
  simp only [htw, List.drop_left, hterm]

/-- C5: a malformed header — a non-numeric length byte after the digit run,
or a terminator that breaks off after `\r` — makes `decode` fail with a
`FramingError` (it neither crashes nor silently resynchronizes, being a
total function into `DecodeResult`); the Connection Actor treats that
result as an unrecoverable read failure: it tears down exactly the failing
connection, leaves every other connection in place, and never aborts the
editor process. -/
theorem framing_error_teardown_only
    (ds : List Nat) (b : Nat) (rest : List Nat) (ed : EditorSt) (c : Nat)
    (hds : ∀ d ∈ ds, isDigitByte d = true) (hb : isDigitByte b = false) (hcr : b ≠ 13) :
    decode (headerLit ++ ds ++ b :: rest) = .framingError ∧
    (∀ b' rest', b' ≠ 10 →
      decode (headerLit ++ ds ++ 13 :: b' :: rest') = .framingError) ∧
    (actorOnDecode ed c (decode (headerLit ++ ds ++ b :: rest))).alive = ed.alive ∧
    c ∉ (actorOnDecode ed c (decode (headerLit ++ ds ++ b :: rest))).conns ∧
    (∀ c', c' ≠ c →
      (c' ∈ (actorOnDecode ed c (decode (headerLit ++ ds ++ b :: rest))).conns ↔
        c' ∈ ed.conns)) := by
  have herr := decode_malformed_after_digits ds b rest hds hb hcr
  refine ⟨herr, fun b' rest' hb' => decode_broken_terminator ds b' rest' hds hb', ?_, ?_, ?_⟩
  · rw [herr]; rfl
  · rw [herr]
    simp [actorOnDecode, onFramingFailure]
  · intro c' hc'
    rw [herr]
    simp [actorOnDecode, onFramingFailure, List.mem_filter, hc']

/-- Witness for `framing_error_teardown_only`: the header
`"Content-Length: 12x"` (a non-numeric length) fails with a framing error,
and handling it tears down connection 1 of an editor holding connections
1 and 2, leaving connection 2 and the editor process alive. -/
theorem framing_error_teardown_only_witness :
    decode (headerLit ++ [49, 50] ++ 120 :: []) = .framingError ∧
    (actorOnDecode ⟨[1, 2], true⟩ 1 (decode (headerLit ++ [49, 50] ++ 120 :: []))).alive = true ∧
    (1 ∉ (actorOnDecode ⟨[1, 2], true⟩ 1 (decode (headerLit ++ [49, 50] ++ 120 :: []))).conns) ∧
    (2 ∈ (actorOnDecode ⟨[1, 2], true⟩ 1 (decode (headerLit ++ [49, 50] ++ 120 :: []))).conns) := by
  have h := framing_error_teardown_only [49, 50] 120 [] ⟨[1, 2], true⟩ 1
    (by decide) (by decide) (by decide)
  exact ⟨h.1, h.2.2.1, h.2.2.2.1, (h.2.2.2.2 2 (by decide)).mpr (by decide)⟩

/-- C6: round trip over the Content-Length framing — for every payload,
`decode` applied to `encode payload` (followed by any residual bytes)
yields back exactly the original payload bytes and the residue; and a
frame whose declared length exceeds the bytes currently available makes
`decode` suspend awaiting more input rather than fail. -/
theorem encode_decode_round_trip :
    (∀ payload rest : List Nat, decode (encode payload ++ rest) = .done payload rest) ∧
    (∀ (n : Nat) (partialPayload : List Nat), partialPayload.length < n →
      decode (headerLit ++ natToDec n ++ termLit ++ partialPayload) = .needMore) :=
  ⟨decode_encode_append, decode_short_payload⟩

/-- Witness for `encode_decode_round_trip`: the payload `"hi"` round-trips
with a residual byte, and a frame declaring 5 bytes with only 1 available
suspends. -/
theorem encode_decode_round_trip_witness :
    decode (encode [104, 105] ++ [53]) = .done [104, 105] [53] ∧
    decode (headerLit ++ natToDec 5 ++ termLit ++ [104]) = .needMore :=
  ⟨encode_decode_round_trip.1 [104, 105] [53],
    encode_decode_round_trip.2 5 [104] (by decide)⟩

/-! ## Document Sync Tracker (§4.3 of the spec)

The tracker and Sync Coordinator are not part of this source slice; the
state machine is modelled from the transition table in §4.3.  Buffer
content snapshots are opaque `Nat` values (the buffer/rope collaborator is
out of scope; the core only references the current snapshot). -/

/-- Per-(document, connection) sync state (`DocumentSyncState` in §3). -/
inductive SyncSt where
  | closed
  | synced (v : Nat)
  | stale
deriving DecidableEq

/-- Document lifecycle events seen by the Sync Coordinator.  An `edit`
carries the buffer content snapshot after the edit. -/
inductive Ev where
  | openReq
  | edit (c : Nat)
  | closeReq
  | disable
  | enable
deriving DecidableEq

/-- Outbound document-lifecycle messages.  An open notification carries the
full buffer content it reports. -/
inductive OutMsg where
  | openMsg (c : Nat)
  | changeMsg
  | closeMsg
deriving DecidableEq

/-- A (document, connection) tracker entry: sync state plus the current
buffer content snapshot. -/
structure Doc where
  sync : SyncSt
  content : Nat
deriving DecidableEq

/-- Modelled from the spec: the Document Sync Tracker transition table of
§4.3 (the tracker is absent from this source slice).  Each event yields the
new entry and the outbound messages (zero or one).  Combinations not listed
in the table leave the state unchanged; an edit always records the new
buffer content (§4.3 edge case: edits while `Closed` or `Stale` accumulate
in the buffer only). -/
def step (d : Doc) : Ev → Doc × List OutMsg
  | .openReq =>
    match d.sync with
    | .closed => ({ sync := .synced 0, content := d.content }, [.openMsg d.content])
    | _ => (d, [])
  | .edit c =>
    match d.sync with
    | .synced v => ({ sync := .synced (v + 1), content := c }, [.changeMsg])
    | .stale => ({ sync := .stale, content := c }, [])
    | .closed => ({ sync := .closed, content := c }, [])
  | .closeReq =>
    match d.sync with
    | .synced _ => ({ d with sync := .closed }, [.closeMsg])
    | .stale => ({ d with sync := .closed }, [])
    | .closed => (d, [])
  | .disable =>
    match d.sync with
    | .synced _ => ({ d with sync := .stale }, [])
    | _ => (d, [])
  | .enable =>
    match d.sync with
    | .stale => ({ sync := .synced 0, content := d.content }, [.openMsg d.content])
    | _ => (d, [])

/-- Run the tracker over a list of events, collecting all outbound
messages in order. -/
def run (d : Doc) : List Ev → Doc × List OutMsg
  | [] => (d, [])
  | e :: es =>
    let (d', ms) := step d e
    let (d'', ms') := run d' es
    (d'', ms ++ ms')

/-! ## The toggle-desync bug (issue #952)

`tests/e2e/lsp_toggle_desync.rs` documents the actual implementation's
behavior: on re-enable the async LSP handler skips `didOpen` because
`should_skip_did_open` consults `document_versions`, which still holds the
path from the first open, and no `didClose` was sent on toggle-off; the
test asserts that after open / edit / toggle-off / edit / toggle-on only
ONE `didOpen` was ever sent.  The model below is transcribed from that
test's documented bug flow (steps 1–6 of its header comment). -/

/-- The buggy implementation's per-document LSP bookkeeping, as documented
by the desync test: whether LSP is enabled for the buffer, whether
`document_versions` holds the path (with the version counter), and whether
`lsp_opened_with` holds the server handle. -/
structure BuggyDoc where
  enabled : Bool
  hasVersion : Bool
  version : Nat
  openedWith : Bool
  content : Nat
deriving DecidableEq

/-- One step of the buggy implementation, transcribed from the test's
documented flow: `didOpen` is attempted on open and on toggle-on, but
skipped whenever `document_versions` still has the path
(`should_skip_did_open`); toggle-off clears `lsp_opened_with` but keeps
`document_versions` and sends no `didClose`; edits send `didChange` exactly
when LSP is enabled and the document is marked opened-with. -/
def buggyStep (d : BuggyDoc) : Ev → BuggyDoc × List OutMsg
  | .openReq =>
    if d.enabled then
      if d.hasVersion then
        ({ d with openedWith := true }, [])
      else
        ({ d with hasVersion := true, version := 0, openedWith := true },
          [.openMsg d.content])
    else (d, [])
  | .edit c =>
    if d.enabled && d.openedWith then
      ({ d with content := c, version := d.version + 1 }, [.changeMsg])
    else ({ d with content := c }, [])
  | .closeReq => ({ d with hasVersion := false, openedWith := false }, [.closeMsg])
  | .disable => ({ d with enabled := false, openedWith := false }, [])
  | .enable =>
    if d.hasVersion then
      ({ d with enabled := true, openedWith := true }, [])
    else
      ({ d with enabled := true, hasVersion := true, version := 0, openedWith := true },
        [.openMsg d.content])

/-- Run the buggy implementation over a list of events. -/
def buggyRun (d : BuggyDoc) : List Ev → BuggyDoc × List OutMsg
  | [] => (d, [])
  | e :: es =>
    let (d', ms) := buggyStep d e
    let (d'', ms') := buggyRun d' es
    (d'', ms ++ ms')

/-- Number of open notifications in a message list. -/
def countOpens (ms : List OutMsg) : Nat :=
  (ms.filter fun m => match m with | .openMsg _ => true | _ => false).length

/-- The event sequence of the desync test: open the file, edit, toggle LSP
off, edit while disabled, toggle LSP back on, edit again.  Content
snapshots 1, 2, 3 stand for the buffer after each edit. -/
def desyncSeq : List Ev := [.openReq, .edit 1, .disable, .edit 2, .enable, .edit 3]

/-- Initial tracker entry: document closed, initial buffer content 0. -/
def doc0 : Doc := { sync := .closed, content := 0 }

/-- Initial state of the buggy implementation: LSP enabled, document not
yet known to the server, initial buffer content 0. -/
def buggy0 : BuggyDoc :=
  { enabled := true, hasVersion := false, version := 0, openedWith := false, content := 0 }

/-- An item of an execution trace: either a local lifecycle event or an
outbound message. -/
inductive TrItem where
  | ev (e : Ev)
  | msg (m : OutMsg)
deriving DecidableEq

/-- Trace of the spec tracker: each event followed by the messages it
produced. -/
def specTrace (d : Doc) : List Ev → List TrItem
  | [] => []
  | e :: es =>
    let (d', ms) := step d e
    .ev e :: (ms.map .msg ++ specTrace d' es)

/-- Trace of the buggy implementation: each event followed by the messages
it produced. -/
def buggyTrace (d : BuggyDoc) : List Ev → List TrItem
  | [] => []
  | e :: es =>
    let (d', ms) := buggyStep d e
    .ev e :: (ms.map .msg ++ buggyTrace d' es)

/-- Invariant I1 as a trace checker.  The abstract sync state of a
(document, connection) pair is determined by what was actually
communicated: it becomes `Synced(0)` only through a sent open
notification (invariant I2), `Synced(v+1)` through a change notification
sent in `Synced(v)`, `Stale` when the integration is disabled, and
`Closed` through a close (message, or silent close out of `Stale`).
`i1Check` accepts a trace iff every change notification is sent while the
pair is `Synced`. -/
def i1Check (st : SyncSt) : List TrItem → Bool
  | [] => true
  | .msg .changeMsg :: r =>
    match st with
    | .synced v => i1Check (.synced (v + 1)) r
    | _ => false
  | .msg (.openMsg _) :: r => i1Check (.synced 0) r
  | .msg .closeMsg :: r => i1Check .closed r
  | .ev .disable :: r =>
    i1Check (match st with | .synced _ => .stale | s => s) r
  | .ev .closeReq :: r =>
    i1Check (match st with | .stale => .closed | s => s) r
  | .ev _ :: r => i1Check st r

/-! ### Claim theorems for the sync tracker -/

/-- C1 (code bug, issue #952): on the desync test's event sequence — open,
edit, toggle off, edit while disabled, toggle on, edit — the implementation
(as documented and asserted by `test_lsp_toggle_off_edit_toggle_on_causes_desync`)
sends exactly ONE open notification in total: the re-open on re-enable is
skipped because `document_versions` still holds the path, and the toggle-on
prefix of its run ends with no second open.  The spec's tracker (§4.3) on
the same events sends a second open carrying the CURRENT buffer content
(snapshot 2, after the disabled-time edit, not snapshot 1 from before the
toggle), for two opens in total. -/
theorem lsp_toggle_reopen_skipped_bug :
    countOpens (buggyRun buggy0 desyncSeq).2 = 1 ∧
    (buggyRun buggy0 [.openReq, .edit 1, .disable, .edit 2, .enable]).2
      = [.openMsg 0, .changeMsg] ∧
    (run doc0 desyncSeq).2 = [.openMsg 0, .changeMsg, .openMsg 2, .changeMsg] ∧
    countOpens (run doc0 desyncSeq).2 = 2 := by
  decide

/-- C2 (code bug): invariant I1 — a change notification may only be sent to
a pair in state `Synced(v)`, and sending it moves the pair to
`Synced(v+1)`, never from `Stale` or `Closed`.  The spec tracker satisfies
I1 on every run from every state (first two conjuncts: the trace checker
accepts all its traces, and any step emitting a change starts in
`Synced(v)` and ends in `Synced(v+1)`); the buggy implementation violates
it on the desync sequence: its final change notification is sent while the
pair's communicated state is still `Stale`, since no open was sent after
the toggle-off. -/
theorem change_only_when_synced :
    (∀ (d : Doc) (evs : List Ev), i1Check d.sync (specTrace d evs) = true) ∧
    (∀ (d : Doc) (e : Ev), .changeMsg ∈ (step d e).2 →
      ∃ v, d.sync = .synced v ∧ (step d e).1.sync = .synced (v + 1)) ∧
    i1Check .closed (buggyTrace buggy0 desyncSeq) = false := by
  refine ⟨?_, ?_, by decide⟩
  · intro d evs
    induction evs generalizing d with
    | nil => rfl
    | cons e es ih =>
      cases e <;> rcases d with ⟨st, c⟩ <;> cases st <;>
        simp_all [specTrace, step, i1Check] <;> exact ih ⟨_, _⟩
  · intro d e hmem
    rcases d with ⟨st, c⟩
    cases e <;> cases st <;> simp_all [step]

/-- Witness for `change_only_when_synced`: a change sent from
`Synced(3)` moves the pair to `Synced(4)`, and the checker accepts a
concrete spec trace. -/
theorem change_only_when_synced_witness :
    (∃ v, (Doc.mk (.synced 3) 0).sync = .synced v ∧
      (step (Doc.mk (.synced 3) 0) (.edit 7)).1.sync = .synced (v + 1)) ∧
    i1Check (Doc.mk (.synced 3) 0).sync (specTrace (Doc.mk (.synced 3) 0) desyncSeq) = true :=
  ⟨change_only_when_synced.2.1 (Doc.mk (.synced 3) 0) (.edit 7) (by decide),
    change_only_when_synced.1 (Doc.mk (.synced 3) 0) desyncSeq⟩

/-- C7: edits arriving while a (document, connection) pair is `Closed`
produce no outbound message; they are retained in the buffer content, the
pair stays `Closed`, and the next open request sends a full-content open
notification carrying the complete current content — no edit is lost. -/
theorem closed_edits_buffered (d : Doc) (hd : d.sync = .closed) (cs : List Nat) :
    (run d (cs.map Ev.edit)).2 = [] ∧
    (run d (cs.map Ev.edit)).1.sync = .closed ∧
    (run d (cs.map Ev.edit)).1.content = cs.getLastD d.content ∧
    (step (run d (cs.map Ev.edit)).1 .openReq).2 = [.openMsg (cs.getLastD d.content)] := by
  induction cs generalizing d with
  | nil =>
    rcases d with ⟨st, c⟩
    cases st <;> simp_all [run, step]
  | cons c cs ih =>
    rcases d with ⟨st, c0⟩
    have hst : st = .closed := hd
    subst hst
    have h := ih ⟨.closed, c⟩ rfl
    simp only [List.getLastD_cons]
    simpa [run, step] using h

/-- Witness for `closed_edits_buffered`: two edits while closed send
nothing, and the subsequent open carries the last content snapshot 7. -/
theorem closed_edits_buffered_witness :
    (run doc0 ([5, 7].map Ev.edit)).2 = [] ∧
    (run doc0 ([5, 7].map Ev.edit)).1.sync = .closed ∧
    (run doc0 ([5, 7].map Ev.edit)).1.content = [5, 7].getLastD doc0.content ∧
    (step (run doc0 ([5, 7].map Ev.edit)).1 .openReq).2
      = [.openMsg ([5, 7].getLastD doc0.content)] :=
  closed_edits_buffered doc0 rfl [5, 7]

/-! ## Connection Actor: pending requests (§3 PendingRequest, §4.4)

The Connection Actor is not part of this source slice; its pending-request
table is modelled from the spec: request ids come from a per-connection
monotonically increasing counter; a response is matched by id and delivered
exactly once; a response for an unknown or already-resolved id is
discarded; a timeout resolves a single request; teardown resolves every
pending request with `ConnectionLost`. -/

/-- Events on one connection's pending-request table. -/
inductive REv where
  | send
  | resp (id : Nat)
  | timeout (id : Nat)
  | teardown
deriving DecidableEq

/-- Observable outcomes: a resolution of a pending request (delivery to its
waiter, timeout error, or `ConnectionLost` on teardown), or the discard of
a response that matched no pending request. -/
inductive ROut where
  | delivered (id : Nat)
  | timedOut (id : Nat)
  | connLost (id : Nat)
  | discarded (id : Nat)
deriving DecidableEq

/-- A connection's request state: the next request id to allocate and the
ids of currently pending (unresolved) requests. -/
structure ConnSt where
  nextId : Nat
  pending : List Nat
deriving DecidableEq

/-- A fresh connection: no ids allocated, nothing pending. -/
def conn0 : ConnSt := { nextId := 0, pending := [] }

/-- Modelled from the spec: one step of the pending-request lifecycle
(§3, §4.4), absent from this source slice.  `send` allocates the next id;
a response resolves the matching pending request or is discarded; a
timeout resolves a single pending request; teardown resolves all pending
requests with `ConnectionLost`. -/
def rstep (s : ConnSt) : REv → ConnSt × List ROut
  | .send => ({ nextId := s.nextId + 1, pending := s.nextId :: s.pending }, [])
  | .resp id =>
    if id ∈ s.pending then ({ s with pending := s.pending.erase id }, [.delivered id])
    else (s, [.discarded id])
  | .timeout id =>
    if id ∈ s.pending then ({ s with pending := s.pending.erase id }, [.timedOut id])
    else (s, [])
  | .teardown => ({ s with pending := [] }, s.pending.map .connLost)

/-- Run the pending-request table over a list of events. -/
def rrun (s : ConnSt) : List REv → ConnSt × List ROut
  | [] => (s, [])
  | e :: es =>
    let (s', os) := rstep s e
    let (s'', os') := rrun s' es
    (s'', os ++ os')

/-- Does this outcome resolve request `id` (by delivery, timeout, or
connection loss)? -/
def isResolutionFor (id : Nat) : ROut → Bool
  | .delivered j => j = id
  | .timedOut j => j = id
  | .connLost j => j = id
  | .discarded _ => false

/-- How many times request `id` was resolved in an outcome list. -/
def resCount (os : List ROut) (id : Nat) : Nat :=
  (os.filter (isResolutionFor id)).length

/-- How many times a response for request `id` was delivered to a waiter. -/
def deliveredCount (os : List ROut) (id : Nat) : Nat :=
  (os.filter fun o => match o with | .delivered j => j = id | _ => false).length

theorem resCount_append (a b : List ROut) (id : Nat) :
    resCount (a ++ b) id = resCount a id + resCount b id := by
  simp [resCount, List.filter_append]

theorem resCount_connLost_map (l : List Nat) (id : Nat) :
    resCount (l.map ROut.connLost) id = l.count id := by
  induction l with
  | nil => rfl
  | cons a l ih =>
    by_cases h : a = id <;>
      simp [resCount, isResolutionFor, h, List.count_cons] at * <;> omega

theorem resCount_one_delivered (j id : Nat) :
    resCount [.delivered j] id = if j = id then 1 else 0 := by
  by_cases h : j = id <;> simp [resCount, isResolutionFor, h]

theorem resCount_one_timedOut (j id : Nat) :
    resCount [.timedOut j] id = if j = id then 1 else 0 := by
  by_cases h : j = id <;> simp [resCount, isResolutionFor, h]

theorem deliveredCount_le_resCount (os : List ROut) (id : Nat) :
    deliveredCount os id ≤ resCount os id := by
  induction os with
  | nil => exact Nat.le_refl 0
  | cons o os ih =>
    simp only [deliveredCount, resCount, List.filter_cons] at *
    cases o with
    | delivered j => by_cases h : j = id <;> simp [isResolutionFor, h] <;> omega
    | timedOut j => by_cases h : j = id <;> simp [isResolutionFor, h] <;> omega
    | connLost j => by_cases h : j = id <;> simp [isResolutionFor, h] <;> omega
    | discarded j => simpa [isResolutionFor] using ih

/-- The run invariant: pending ids stay below the allocation counter and
are pairwise distinct, the counter is monotone, and for every id the
number of resolutions so far plus its current multiplicity in the pending
table equals 1 if the id was allocated during the run, 0 otherwise. -/
theorem rrun_inv (evs : List REv) : ∀ (n : Nat) (p : List Nat),
    (∀ i ∈ p, i < n) → p.Nodup →
    (∀ i ∈ (rrun ⟨n, p⟩ evs).1.pending, i < (rrun ⟨n, p⟩ evs).1.nextId) ∧
    (rrun ⟨n, p⟩ evs).1.pending.Nodup ∧
    n ≤ (rrun ⟨n, p⟩ evs).1.nextId ∧
    (∀ id, resCount (rrun ⟨n, p⟩ evs).2 id + ((rrun ⟨n, p⟩ evs).1.pending.count id)
      = p.count id +
        (if n ≤ id ∧ id < (rrun ⟨n, p⟩ evs).1.nextId then 1 else 0)) := by
  induction evs with
  | nil =>
    intro n p hbound hnodup
    refine ⟨hbound, hnodup, Nat.le_refl _, fun id => ?_⟩
    simp only [rrun, resCount, List.filter_nil, List.length_nil]
    split_ifs <;> omega
  | cons e es ih =>
    intro n p hbound hnodup
    cases e with
    | send =>
      have hb' : ∀ i ∈ (n :: p), i < n + 1 := by
        intro i hi
        rcases List.mem_cons.mp hi with h | h
        · omega
        · exact Nat.lt_succ_of_lt (hbound i h)
      have hn' : (n :: p).Nodup := by
        refine List.nodup_cons.mpr ⟨fun h => ?_, hnodup⟩
        exact absurd (hbound _ h) (by omega)
      obtain ⟨h1, h2, h3, h4⟩ := ih (n + 1) (n :: p) hb' hn'
      refine ⟨by simpa [rrun, rstep] using h1, by simpa [rrun, rstep] using h2,
        by simp only [rrun, rstep]; omega, fun id => ?_⟩
      have heq := h4 id
      simp only [rrun, rstep, List.nil_append]
      rw [List.count_cons] at heq
      simp only [beq_iff_eq] at heq
      by_cases hid : n = id
      · subst hid
        simp only [if_pos rfl] at heq
        split_ifs at heq ⊢ <;> omega
      · simp only [if_neg hid] at heq
        split_ifs at heq ⊢ <;> omega
    | resp id0 =>
      by_cases hmem : id0 ∈ p
      · have hb' : ∀ i ∈ p.erase id0, i < n :=
          fun i hi => hbound i (List.mem_of_mem_erase hi)
        obtain ⟨h1, h2, h3, h4⟩ := ih n (p.erase id0) hb' (hnodup.erase id0)
        refine ⟨by simpa [rrun, rstep, hmem] using h1, by simpa [rrun, rstep, hmem] using h2,
          by simpa [rrun, rstep, hmem] using h3, fun id => ?_⟩
        have heq := h4 id
        have hcnt : (p.erase id0).count id = p.count id - (if id0 = id then 1 else 0) := by
          rw [List.count_erase]
          simp only [beq_iff_eq]
        have hone : 1 ≤ p.count id0 := List.one_le_count_iff.mpr hmem
        simp only [rrun, rstep, hmem, if_true, resCount_append, resCount_one_delivered]
        rw [hcnt] at heq
        by_cases hid : id0 = id
        · subst hid
          simp only [if_pos rfl] at heq ⊢
          split_ifs at heq ⊢ <;> omega
        · simp only [if_neg hid] at heq ⊢
          split_ifs at heq ⊢ <;> omega
      · obtain ⟨h1, h2, h3, h4⟩ := ih n p hbound hnodup
        refine ⟨by simpa [rrun, rstep, hmem] using h1, by simpa [rrun, rstep, hmem] using h2,
          by simpa [rrun, rstep, hmem] using h3, fun id => ?_⟩
        have heq := h4 id
        have hdisc : resCount [ROut.discarded id0] id = 0 := by
          simp [resCount, isResolutionFor]
        simp only [rrun, rstep, hmem, if_false, resCount_append, hdisc]
        omega
    | timeout id0 =>
      by_cases hmem : id0 ∈ p
      · have hb' : ∀ i ∈ p.erase id0, i < n :=
          fun i hi => hbound i (List.mem_of_mem_erase hi)
        obtain ⟨h1, h2, h3, h4⟩ := ih n (p.erase id0) hb' (hnodup.erase id0)
        refine ⟨by simpa [rrun, rstep, hmem] using h1, by simpa [rrun, rstep, hmem] using h2,
          by simpa [rrun, rstep, hmem] using h3, fun id => ?_⟩
        have heq := h4 id
        have hcnt : (p.erase id0).count id = p.count id - (if id0 = id then 1 else 0) := by
          rw [List.count_erase]
          simp only [beq_iff_eq]
        have hone : 1 ≤ p.count id0 := List.one_le_count_iff.mpr hmem
        simp only [rrun, rstep, hmem, if_true, resCount_append, resCount_one_timedOut]
        rw [hcnt] at heq
        by_cases hid : id0 = id
        · subst hid
          simp only [if_pos rfl] at heq ⊢
          split_ifs at heq ⊢ <;> omega
        · simp only [if_neg hid] at heq ⊢
          split_ifs at heq ⊢ <;> omega
      · obtain ⟨h1, h2, h3, h4⟩ := ih n p hbound hnodup
        refine ⟨by simpa [rrun, rstep, hmem] using h1, by simpa [rrun, rstep, hmem] using h2,
          by simpa [rrun, rstep, hmem] using h3, fun id => ?_⟩
        have heq := h4 id
        simp only [rrun, rstep, hmem, if_false, resCount_append]
        simpa [resCount] using heq
    | teardown =>
      obtain ⟨h1, h2, h3, h4⟩ := ih n [] (by simp) List.nodup_nil
      refine ⟨by simpa [rrun, rstep] using h1, by simpa [rrun, rstep] using h2,
        by simpa [rrun, rstep] using h3, fun id => ?_⟩
      have heq := h4 id
      simp only [rrun, rstep, resCount_append, resCount_connLost_map]
      simp only [List.count_nil] at heq
      split_ifs at heq ⊢ <;> omega

/-- C3: on any event run of a fresh connection, every allocated request id
is resolved at most once — exactly once as soon as it is no longer pending
(its resolution count plus its pending multiplicity equals 1 for allocated
ids and 0 for unallocated ones, so resolution happens by matching response,
timeout, or teardown, whichever comes first, and removal from the table
coincides with resolution); a response is delivered to a waiter at most
once; a response for an unknown or already-resolved (hence not pending) id
is discarded without touching the table; and ids are allocated by a
monotonically increasing counter, so pending ids are pairwise distinct and
below the counter. -/
theorem pending_request_resolved_once :
    (∀ (evs : List REv) (id : Nat),
      resCount (rrun conn0 evs).2 id + ((rrun conn0 evs).1.pending.count id)
        = (if id < (rrun conn0 evs).1.nextId then 1 else 0)) ∧
    (∀ (evs : List REv) (id : Nat), resCount (rrun conn0 evs).2 id ≤ 1) ∧
    (∀ (evs : List REv) (id : Nat), deliveredCount (rrun conn0 evs).2 id ≤ 1) ∧
    (∀ (s : ConnSt) (id : Nat), id ∉ s.pending → rstep s (.resp id) = (s, [.discarded id])) ∧
    (∀ evs : List REv, (rrun conn0 evs).1.pending.Nodup ∧
      ∀ i ∈ (rrun conn0 evs).1.pending, i < (rrun conn0 evs).1.nextId) := by
  have key : ∀ evs : List REv,
      (∀ i ∈ (rrun conn0 evs).1.pending, i < (rrun conn0 evs).1.nextId) ∧
      (rrun conn0 evs).1.pending.Nodup ∧
      (∀ id, resCount (rrun conn0 evs).2 id + ((rrun conn0 evs).1.pending.count id)
        = (if id < (rrun conn0 evs).1.nextId then 1 else 0)) := by
    intro evs
    obtain ⟨h1, h2, _, h4⟩ := rrun_inv evs 0 [] (by simp) List.nodup_nil
    refine ⟨h1, h2, fun id => ?_⟩
    simpa [conn0, Nat.zero_le] using h4 id
  refine ⟨fun evs id => (key evs).2.2 id, fun evs id => ?_, fun evs id => ?_,
    fun s id h => by simp [rstep, h], fun evs => ⟨(key evs).2.1, (key evs).1⟩⟩
  · have := (key evs).2.2 id
    split_ifs at this <;> omega
  · have h := (key evs).2.2 id
    have hd := deliveredCount_le_resCount (rrun conn0 evs).2 id
    split_ifs at h <;> omega

/-- Witness for `pending_request_resolved_once`: on the run send, respond
to id 0, respond to id 0 again, the id-0 counting identity holds, delivery
happened at most once, and a response for the unknown id 5 on a fresh
connection is discarded. -/
theorem pending_request_resolved_once_witness :
    (resCount (rrun conn0 [.send, .resp 0, .resp 0]).2 0
      + ((rrun conn0 [.send, .resp 0, .resp 0]).1.pending.count 0)
      = (if 0 < (rrun conn0 [.send, .resp 0, .resp 0]).1.nextId then 1 else 0)) ∧
    deliveredCount (rrun conn0 [.send, .resp 0, .resp 0]).2 0 ≤ 1 ∧
    rstep conn0 (.resp 5) = (conn0, [.discarded 5]) :=
  ⟨pending_request_resolved_once.1 [.send, .resp 0, .resp 0] 0,
    pending_request_resolved_once.2.2.1 [.send, .resp 0, .resp 0] 0,
    pending_request_resolved_once.2.2.2.1 conn0 5 (by decide)⟩

/-! ## Process Supervisor (§4.2 of the spec)

The supervisor is not part of this source slice; it is modelled from the
spec for a single language id: at most one live connection, crash handling
that purges every DocumentSyncState entry keyed to the dead connection
(dropped, not marked `Stale`) and schedules a restart with exponential
backoff 1s, 2s, 4s, … capped at 30s, and an `ensure_running` that refuses
to spawn before the backoff deadline.  Time is in whole seconds. -/

/-- Supervisor state for one language: the live connection ids (the claim
is that there is never more than one), the next fresh connection id, the
consecutive restart-attempt count, the current backoff deadline, and the
(document id, connection id, sync state) tracker entries. -/
structure Sup where
  live : List Nat
  nextConn : Nat
  attempts : Nat
  deadline : Nat
  entries : List (Nat × Nat × SyncSt)
deriving DecidableEq

/-- Initial supervisor state: nothing running, no entries, deadline 0 (an
`ensure_running` may spawn immediately). -/
def sup0 : Sup :=
  { live := [], nextConn := 0, attempts := 0, deadline := 0, entries := [] }

/-- Supervisor events, each stamped with the current time in seconds:
opening a document against the live connection, the subprocess crash
report, and `ensure_running` (which is also the manual-retry entry
point). -/
inductive SEv where
  | openDoc (doc : Nat)
  | crash (t : Nat)
  | ensure (t : Nat)
deriving DecidableEq

/-- Modelled from the spec: exponential restart backoff, 1s, 2s, 4s, …
capped at 30s (§4.2). -/
def backoff (attempts : Nat) : Nat := min (2 ^ attempts) 30

/-- Modelled from the spec: one supervisor step (§4.2), absent from this
source slice.  A crash tears the connection down: every tracker entry
keyed to it is dropped (not marked `Stale`) and the next backoff deadline
is scheduled; `ensure_running` spawns a fresh connection only when none is
live and the backoff deadline has passed. -/
def sstep (s : Sup) : SEv → Sup
  | .openDoc d =>
    match s.live with
    | [c] => { s with entries := (d, c, .synced 0) :: s.entries }
    | _ => s
  | .crash t =>
    match s.live with
    | [c] =>
      { live := [], nextConn := s.nextConn, attempts := s.attempts + 1,
        deadline := t + backoff s.attempts,
        entries := s.entries.filter (fun e => e.2.1 ≠ c) }
    | _ => s
  | .ensure t =>
    if s.live.isEmpty && s.deadline ≤ t then
      { s with live := [s.nextConn], nextConn := s.nextConn + 1 }
    else s

/-- Run the supervisor over a list of events. -/
def srun (s : Sup) : List SEv → Sup
  | [] => s
  | e :: es => srun (sstep s e) es

/-- C4: at most one live connection per language at every reachable
supervisor state; a crash of the connection with M open documents removes
all M tracker entries keyed to it — dropped outright, so no entry for the
dead connection remains in any state, `Stale` included — before any
replacement exists (the live set is empty right after the crash), and the
restart deadline is scheduled with the exponential backoff
`min (2^attempts) 30` seconds from the crash; an `ensure_running` retry
before the backoff deadline changes nothing at all, so it can never spawn
a second process. -/
theorem supervisor_crash_recovery :
    (∀ evs : List SEv, (srun sup0 evs).live.length ≤ 1) ∧
    (∀ (s : Sup) (t c : Nat), s.live = [c] →
      (sstep s (.crash t)).entries = s.entries.filter (fun e => e.2.1 ≠ c) ∧
      (∀ e ∈ (sstep s (.crash t)).entries, e.2.1 ≠ c) ∧
      (sstep s (.crash t)).live = [] ∧
      (sstep s (.crash t)).deadline = t + min (2 ^ s.attempts) 30 ∧
      (sstep s (.crash t)).attempts = s.attempts + 1) ∧
    (∀ (s : Sup) (t : Nat), t < s.deadline → sstep s (.ensure t) = s) := by
  refine ⟨?_, ?_, ?_⟩
  · intro evs
    suffices h : ∀ (evs : List SEv) (s : Sup), s.live.length ≤ 1 →
        (srun s evs).live.length ≤ 1 by
      exact h evs sup0 (by simp [sup0])
    intro evs
    induction evs with
    | nil => intro s hs; exact hs
    | cons e es ih =>
      intro s hs
      refine ih (sstep s e) ?_
      cases e with
      | openDoc d =>
        rcases hlive : s.live with _ | ⟨c, _ | _⟩ <;> simp [sstep, hlive] <;> simp_all
      | crash t =>
        rcases hlive : s.live with _ | ⟨c, _ | _⟩ <;> simp [sstep, hlive] <;> simp_all
      | ensure t =>
        by_cases hc : s.live.isEmpty && decide (s.deadline ≤ t)
        · simp [sstep, hc]
        · simpa [sstep, hc] using hs
  · intro s t c hlive
    refine ⟨by simp [sstep, hlive], ?_, by simp [sstep, hlive],
      by simp [sstep, hlive, backoff], by simp [sstep, hlive]⟩
    intro e he
    have : e ∈ s.entries.filter (fun e => e.2.1 ≠ c) := by
      simpa [sstep, hlive] using he
    exact of_decide_eq_true (List.mem_filter.mp this).2
  · intro s t ht
    have h2 : (s.deadline ≤ t) = False := by simp; omega
    simp [sstep, h2]

/-- Witness for `supervisor_crash_recovery`: spawn a connection, open two
documents against it, crash it at t = 3 — both entries are gone, nothing
is live, the deadline is 3 + 1 = 4 — and an `ensure_running` retry at
t = 3 (before the deadline) changes nothing. -/
theorem supervisor_crash_recovery_witness :
    (srun sup0 [.ensure 0, .openDoc 10, .openDoc 11]).live.length ≤ 1 ∧
    (sstep (srun sup0 [.ensure 0, .openDoc 10, .openDoc 11]) (.crash 3)).entries = [] ∧
    (sstep (srun sup0 [.ensure 0, .openDoc 10, .openDoc 11]) (.crash 3)).live = [] ∧
    (sstep (srun sup0 [.ensure 0, .openDoc 10, .openDoc 11]) (.crash 3)).deadline = 4 ∧
    sstep (sstep (srun sup0 [.ensure 0, .openDoc 10, .openDoc 11]) (.crash 3)) (.ensure 3)
      = sstep (srun sup0 [.ensure 0, .openDoc 10, .openDoc 11]) (.crash 3) := by
  have h0 := supervisor_crash_recovery.1 [.ensure 0, .openDoc 10, .openDoc 11]
  have h1 := supervisor_crash_recovery.2.1 (srun sup0 [.ensure 0, .openDoc 10, .openDoc 11])
    3 0 (by decide)
  have h2 := supervisor_crash_recovery.2.2
    (sstep (srun sup0 [.ensure 0, .openDoc 10, .openDoc 11]) (.crash 3)) 3 (by decide)
  exact ⟨h0, by rw [h1.1]; decide, h1.2.2.1, by rw [h1.2.2.2.1]; decide, h2⟩

/-! ## Release checker (`src/services/release_checker.rs`)

`is_newer_version` is embedded from the Rust source; strings are modelled
as `List Char`. -/

/-- Rust's `str::split(sep)` for a single-character separator: splits on
every occurrence, keeping empty pieces, and yields `[""]` on the empty
string. -/
def splitOnChar (sep : Char) : List Char → List (List Char)
  | [] => [[]]
  | c :: rest =>
    if c = sep then [] :: splitOnChar sep rest
    else
      match splitOnChar sep rest with
      | [] => [[c]]
      | h :: t => (c :: h) :: t

/-- Rust's `u32::from_str` composed with `.ok()`: an optional leading `+`,
then one or more ASCII digits, no other characters, and the value must fit
in a `u32` (otherwise the parse errors and `.ok()` gives `None`). -/
def parseU32 (s : List Char) : Option Nat :=
  let t := match s with
    | '+' :: rest => rest
    | _ => s
  if t.isEmpty then none
  else if t.all Char.isDigit then
    let n := t.foldl (fun a c => a * 10 + (c.toNat - 48)) 0
    if n < 2 ^ 32 then some n else none
  else none

/-- The closure `parse_version` inside `is_newer_version`
(release_checker.rs:222-235): split on `'.'`; with ≥ 3 parts use
`parts[0]`, `parts[1]`, and `parts[2].split('-').next()`; with exactly 2
parts the patch defaults to 0; otherwise fail. -/
def parse_version (v : List Char) : Option (Nat × Nat × Nat) :=
  let parts := splitOnChar '.' v
  if parts.length ≥ 3 then
    match parts with
    | p0 :: p1 :: p2 :: _ =>
      match parseU32 p0, parseU32 p1, parseU32 ((splitOnChar '-' p2).headD []) with
      | some a, some b, some c => some (a, b, c)
      | _, _, _ => none
    | _ => none
  else if parts.length = 2 then
    match parts with
    | [p0, p1] =>
      match parseU32 p0, parseU32 p1 with
      | some a, some b => some (a, b, 0)
      | _, _ => none
    | _ => none
  else none

/-- Rust's lexicographic `>` on `(u32, u32, u32)` tuples. -/
def tripleGt (x y : Nat × Nat × Nat) : Bool :=
  if x.1 ≠ y.1 then decide (x.1 > y.1)
  else if x.2.1 ≠ y.2.1 then decide (x.2.1 > y.2.1)
  else decide (x.2.2 > y.2.2)

/-- `is_newer_version` (release_checker.rs:221-243): true iff both version
strings parse and `latest`'s triple is strictly greater than `current`'s. -/
def is_newer_version (current latest : List Char) : Bool :=
  match parse_version current, parse_version latest with
  | some c, some l => tripleGt l c
  | _, _ => false

/-- Following the CLAIM's words, not the code: a version string parses iff
it is numeric `major.minor` or `major.minor.patch` (a missing patch
defaults to 0, and any `'-'`-suffix on the patch component is ignored) —
so strings with more than three dot-separated components do not parse. -/
def claimParse (v : List Char) : Option (Nat × Nat × Nat) :=
  match splitOnChar '.' v with
  | [ma, mi] =>
    match parseU32 ma, parseU32 mi with
    | some a, some b => some (a, b, 0)
    | _, _ => none
  | [ma, mi, pa] =>
    match parseU32 ma, parseU32 mi, parseU32 ((splitOnChar '-' pa).headD []) with
    | some a, some b, some c => some (a, b, c)
    | _, _, _ => none
  | _ => none

/-- The amended parse rule: like the claim's, except that a string with
MORE than three dot-separated components also parses, using only its first
three components (the rest are ignored). -/
def amendedParse (v : List Char) : Option (Nat × Nat × Nat) :=
  match (splitOnChar '.' v).take 3 with
  | [ma, mi] =>
    match parseU32 ma, parseU32 mi with
    | some a, some b => some (a, b, 0)
    | _, _ => none
  | [ma, mi, pa] =>
    match parseU32 ma, parseU32 mi, parseU32 ((splitOnChar '-' pa).headD []) with
    | some a, some b, some c => some (a, b, c)
    | _, _, _ => none
  | _ => none

/-- Counterexample to C8 as stated: `"1.2.3.4"` is not a numeric
`major.minor` or `major.minor.patch` version (it has four components), so
by the claim `is_newer_version("1.2.3.4", "2.0.0")` would have to be
false; the code parses it as `(1, 2, 3)` (the fourth component is
ignored) and returns true. -/
theorem is_newer_version_claim_counterexample :
    is_newer_version ("1.2.3.4".data) ("2.0.0".data) = true ∧
    claimParse ("1.2.3.4".data) = none ∧
    parse_version ("1.2.3.4".data) = some (1, 2, 3) := by
  decide

theorem parse_version_eq_amendedParse (v : List Char) :
    parse_version v = amendedParse v := by
  unfold parse_version amendedParse
  rcases h : splitOnChar '.' v with _ | ⟨p0, _ | ⟨p1, _ | ⟨p2, rest⟩⟩⟩ <;>
    simp [List.take]

/-- C8 amended: `is_newer_version(current, latest)` returns true iff both
strings parse — split on `'.'`: exactly two numeric (`u32`) components give
`(major, minor, 0)`; three or more give `(major, minor, patch)` where the
patch is the part of the third component before any `'-'` and components
beyond the third are ignored — and `latest`'s triple is strictly greater
than `current`'s in lexicographic order; in particular it returns false
whenever either string fails to parse, and on equal parses it is false. -/
theorem is_newer_version_amended (current latest : List Char) :
    is_newer_version current latest = true ↔
      ∃ ct lt, amendedParse current = some ct ∧ amendedParse latest = some lt ∧
        tripleGt lt ct = true := by
  unfold is_newer_version
  rw [parse_version_eq_amendedParse, parse_version_eq_amendedParse]
  cases hc : amendedParse current with
  | none => simp
  | some ct =>
    cases hl : amendedParse latest with
    | none => simp
    | some lt => simp

/-- Witness for `is_newer_version_amended`: `"1.2.10-beta.7"` parses as
`(1, 2, 10)` (the `-beta` suffix and fourth component ignored) and is
newer than `"1.2.3"`; and `is_newer_version` is false on the pair
`("0.1.26", "0.1.26")`. -/
theorem is_newer_version_amended_witness :
    is_newer_version ("1.2.3".data) ("1.2.10-beta.7".data) = true ∧
    is_newer_version ("0.1.26".data) ("0.1.26".data) = false :=
  ⟨(is_newer_version_amended _ _).mpr
    ⟨(1, 2, 3), (1, 2, 10), by decide, by decide, by decide⟩, by decide⟩

/-! ## Semantic highlighter (`src/semantic_highlight.rs`)

The buffer (an external rope collaborator) is a byte list; `slice_bytes`
is byte-range extraction.  The `word_navigation` helpers `is_word_char`,
`find_word_start` and `find_word_end` are imported from a module outside
this slice, so the embedding is parameterized over them (`iwc`, `fws`,
`fwe`); theorems hold for every choice.  `str::from_utf8` checks are
modelled by a UTF-8 validity test on the byte list. -/

/-- `Buffer::slice_bytes(a..b)`: the bytes in `[a, b)`. -/
def sliceBytes (buf : List Nat) (a b : Nat) : List Nat :=
  (buf.take b).drop a

/-- Is this byte a UTF-8 continuation byte (`0x80..=0xBF`)? -/
def utf8Cont (b : Nat) : Bool := 128 ≤ b && b ≤ 191

/-- RFC 3629 UTF-8 validity of a byte list (the success condition of
`std::str::from_utf8`). -/
def utf8Valid : List Nat → Bool
  | [] => true
  | b :: rest =>
    if b ≤ 0x7F then utf8Valid rest
    else if 0xC2 ≤ b && b ≤ 0xDF then
      match rest with
      | c1 :: r => utf8Cont c1 && utf8Valid r
      | [] => false
    else if b = 0xE0 then
      match rest with
      | c1 :: c2 :: r => (0xA0 ≤ c1 && c1 ≤ 0xBF) && utf8Cont c2 && utf8Valid r
      | _ => false
    else if (0xE1 ≤ b && b ≤ 0xEC) || b = 0xEE || b = 0xEF then
      match rest with
      | c1 :: c2 :: r => utf8Cont c1 && utf8Cont c2 && utf8Valid r
      | _ => false
    else if b = 0xED then
      match rest with
      | c1 :: c2 :: r => (0x80 ≤ c1 && c1 ≤ 0x9F) && utf8Cont c2 && utf8Valid r
      | _ => false
    else if b = 0xF0 then
      match rest with
      | c1 :: c2 :: c3 :: r =>
        (0x90 ≤ c1 && c1 ≤ 0xBF) && utf8Cont c2 && utf8Cont c3 && utf8Valid r
      | _ => false
    else if 0xF1 ≤ b && b ≤ 0xF3 then
      match rest with
      | c1 :: c2 :: c3 :: r => utf8Cont c1 && utf8Cont c2 && utf8Cont c3 && utf8Valid r
      | _ => false
    else if b = 0xF4 then
      match rest with
      | c1 :: c2 :: c3 :: r =>
        (0x80 ≤ c1 && c1 ≤ 0x8F) && utf8Cont c2 && utf8Cont c3 && utf8Valid r
      | _ => false
    else false

/-- Rust's `str::find(word)` at the byte level: the first index at which
`word` occurs in `t`, if any. -/
def firstMatch : List Nat → List Nat → Option Nat
  | t, w =>
    if w.isPrefixOf t then some 0
    else
      match t with
      | [] => none
      | _ :: rest => (firstMatch rest w).map (· + 1)

/-- A highlight span (`HighlightSpan` in `highlighter.rs`): a byte range
plus a color (colors are opaque here). -/
structure HighlightSpan where
  start : Nat
  stop : Nat
  color : Nat
deriving DecidableEq

/-- `SemanticHighlighter` (semantic_highlight.rs:35-42). -/
structure SemanticHighlighter where
  highlight_color : Nat
  min_word_length : Nat
  enabled : Bool
deriving DecidableEq

/-- `SemanticHighlighter::new()`: default color, minimum word length 2,
enabled. -/
def SemanticHighlighter.new : SemanticHighlighter :=
  { highlight_color := 0, min_word_length := 2, enabled := true }

/-- `SemanticHighlighter::get_word_at_position`
(semantic_highlight.rs:121-173), parameterized over the word-navigation
collaborators. -/
def get_word_at_position (iwc : Nat → Bool) (fws fwe : List Nat → Nat → Nat)
    (buf : List Nat) (position : Nat) : Option (Nat × Nat) :=
  let buf_len := buf.length
  if position > buf_len then none
  else
    let is_on_word :=
      if position < buf_len then
        ((sliceBytes buf position (position + 1)).head?.map iwc).getD false
      else if position > 0 then
        ((sliceBytes buf (position - 1) position).head?.map iwc).getD false
      else false
    if !is_on_word && position > 0 then
      let is_after_word := ((sliceBytes buf (position - 1) position).head?.map iwc).getD false
      if is_after_word && position ≥ buf_len then
        let start := fws buf (position - 1)
        if start < position then some (start, position) else none
      else none
    else if !is_on_word then none
    else
      let start := fws buf position
      let stop := fwe buf position
      if start < stop then some (start, stop) else none

/-- The search loop of `find_occurrences_in_range`
(semantic_highlight.rs:199-222).  `search_pos` advances by at least 1 per
iteration and a nonempty `word` can match at most `text.length` positions,
so fuel `text.length + 1` (supplied by the wrapper) never runs out on the
paths the Rust loop takes. -/
def findOccGo (iwc : Nat → Bool) (buf word : List Nat) (vstart vend search_start : Nat)
    (text : List Nat) : Nat → Nat → List (Nat × Nat)
  | 0, _ => []
  | fuel + 1, search_pos =>
    match firstMatch (text.drop search_pos) word with
    | none => []
    | some rel =>
      let abs_start := search_start + search_pos + rel
      let abs_end := abs_start + word.length
      let is_word_start := abs_start = 0 ||
        ((sliceBytes buf (abs_start - 1) abs_start).head?.map (fun b => !iwc b)).getD true
      let is_word_end := abs_end ≥ buf.length ||
        ((sliceBytes buf abs_end (abs_end + 1)).head?.map (fun b => !iwc b)).getD true
      let keep := is_word_start && is_word_end &&
        decide (abs_start < vend) && decide (abs_end > vstart)
      (if keep then [(abs_start, abs_end)] else []) ++
        findOccGo iwc buf word vstart vend search_start text fuel (search_pos + rel + 1)

/-- `SemanticHighlighter::find_occurrences_in_range`
(semantic_highlight.rs:176-225): pad the viewport by the word length,
extract the text, and scan for whole-word matches overlapping the
viewport. -/
def find_occurrences_in_range (iwc : Nat → Bool) (buf word : List Nat)
    (vstart vend : Nat) : List (Nat × Nat) :=
  let search_start := vstart - word.length
  let search_end := min (vend + word.length) buf.length
  let text := sliceBytes buf search_start search_end
  if utf8Valid text then
    findOccGo iwc buf word vstart vend search_start text (text.length + 1) 0
  else []

/-- `SemanticHighlighter::highlight_occurrences`
(semantic_highlight.rs:76-116). -/
def highlight_occurrences (h : SemanticHighlighter) (iwc : Nat → Bool)
    (fws fwe : List Nat → Nat → Nat) (buf : List Nat)
    (cursor_position viewport_start viewport_end : Nat) : List HighlightSpan :=
  if !h.enabled then []
  else
    match get_word_at_position iwc fws fwe buf cursor_position with
    | none => []
    | some (ws, we) =>
      let word := sliceBytes buf ws we
      if !utf8Valid word then []
      else if word.length < h.min_word_length then []
      else
        (find_occurrences_in_range iwc buf word viewport_start viewport_end).map
          (fun r => { start := r.1, stop := r.2, color := h.highlight_color })

/-- Modelled from the spec: `is_word_char` of the absent `word_navigation`
module — ASCII alphanumeric or underscore (used only to instantiate the
parameterized theorems). -/
def isWordCharDefault (b : Nat) : Bool :=
  (48 ≤ b && b ≤ 57) || (65 ≤ b && b ≤ 90) || (97 ≤ b && b ≤ 122) || b = 95

/-- Modelled from the spec: `find_word_start` of the absent
`word_navigation` module — scan left while the previous byte is a word
character. -/
def findWordStartDefault (buf : List Nat) : Nat → Nat
  | 0 => 0
  | p + 1 =>
    if isWordCharDefault (buf.getD p 0) then findWordStartDefault buf p else p + 1

/-- Fuel-driven right scan for `findWordEndDefault`. -/
def findWordEndGo (buf : List Nat) : Nat → Nat → Nat
  | 0, e => e
  | fuel + 1, e =>
    if e < buf.length && isWordCharDefault (buf.getD e 0) then
      findWordEndGo buf fuel (e + 1)
    else e

/-- Modelled from the spec: `find_word_end` of the absent `word_navigation`
module — scan right while the current byte is a word character. -/
def findWordEndDefault (buf : List Nat) (p : Nat) : Nat :=
  findWordEndGo buf (buf.length - p) p

/-! ### Highlighter lemmas -/

theorem sliceBytes_eq_drop_take (buf : List Nat) (a b : Nat) :
    sliceBytes buf a b = (buf.drop a).take (b - a) := by
  unfold sliceBytes
  by_cases h : a ≤ b
  · rw [List.take_drop]
    have hab : a + (b - a) = b := by omega
    rw [hab]
  · have hb : b - a = 0 := by omega
    rw [hb, List.take_zero]
    apply List.drop_eq_nil_of_le
    have := List.length_take_le b buf
    omega

theorem getElem?_eq_some_getD (l : List Nat) (i : Nat) (h : i < l.length) :
    l[i]? = some (l.getD i 0) := by
  rw [List.getD_eq_getElem?_getD, List.getElem?_eq_getElem h]
  rfl

theorem sliceBytes_head (buf : List Nat) (a b : Nat) (ha : a < buf.length) (hab : a < b) :
    (sliceBytes buf a b).head? = some (buf.getD a 0) := by
  rw [sliceBytes_eq_drop_take, List.head?_eq_getElem?, List.getElem?_take_of_lt (by omega),
    List.getElem?_drop, Nat.add_zero, getElem?_eq_some_getD buf a ha]

theorem firstMatch_isPrefixOf (w : List Nat) : ∀ (t : List Nat) (i : Nat),
    firstMatch t w = some i → w.isPrefixOf (t.drop i) = true := by
  intro t
  induction t with
  | nil =>
    intro i h
    rw [firstMatch] at h
    by_cases hp : w.isPrefixOf ([] : List Nat)
    · simp only [hp, if_true, Option.some.injEq] at h
      subst h
      simpa using hp
    · simp [hp] at h
  | cons b rest ih =>
    intro i h
    rw [firstMatch] at h
    by_cases hp : w.isPrefixOf (b :: rest)
    · simp only [hp, if_true, Option.some.injEq] at h
      subst h
      simpa using hp
    · simp only [hp, if_false, Bool.false_eq_true] at h
      cases hj : firstMatch rest w with
      | none => rw [hj] at h; simp at h
      | some j =>
        rw [hj] at h
        simp at h
        subst h
        simpa using ih j hj

/-- A nonempty word occurring at offset `k` of the slice `[ss, se)` of the
buffer equals the buffer slice at the corresponding absolute range, which
lies inside `[ss, se)`. -/
theorem prefix_in_slice (buf : List Nat) (ss se k : Nat) (w : List Nat)
    (hw : w ≠ []) (hse : se ≤ buf.length)
    (hpre : w.isPrefixOf ((sliceBytes buf ss se).drop k) = true) :
    sliceBytes buf (ss + k) (ss + k + w.length) = w ∧ ss + k + w.length ≤ se := by
  rw [ List.isPrefixOf_iff_prefix] at hpre
  have hlen := hpre.length_le
  have hslice_len : (sliceBytes buf ss se).length = se - ss := by
    simp only [sliceBytes, List.length_drop, List.length_take]
    omega
  have hwlen : 0 < w.length := List.length_pos_of_ne_nil hw
  simp only [List.length_drop, hslice_len] at hlen
  have hbound : ss + k + w.length ≤ se := by omega
  refine ⟨?_, hbound⟩
  have heq := List.prefix_iff_eq_take.mp hpre
  rw [sliceBytes_eq_drop_take] at heq
  rw [List.drop_take, List.drop_drop] at heq
  have hmin : min w.length (se - ss - k) = w.length := Nat.min_eq_left (by omega)
  have harg : ss + k + w.length - (ss + k) = w.length := by omega
  have heq2 : List.take w.length (List.drop (ss + k) buf) = w := by
    conv_rhs => rw [heq]
    rw [List.take_take, hmin]
  rw [sliceBytes_eq_drop_take, harg, heq2]

/-- Soundness of the occurrence-scan loop: every collected range holds
exactly the searched word, has non-word (or absent) neighbour bytes, and
overlaps the viewport `[vstart, vend)`. -/
theorem findOccGo_sound (iwc : Nat → Bool) (buf word : List Nat)
    (vstart vend ss se : Nat) (hse : se ≤ buf.length) :
    ∀ (fuel search_pos : Nat) (r : Nat × Nat),
      r ∈ findOccGo iwc buf word vstart vend ss (sliceBytes buf ss se) fuel search_pos →
      sliceBytes buf r.1 r.2 = word ∧
      r.2 = r.1 + word.length ∧
      (0 < r.1 → r.1 ≤ buf.length → iwc (buf.getD (r.1 - 1) 0) = false) ∧
      (r.2 < buf.length → iwc (buf.getD r.2 0) = false) ∧
      r.1 < vend ∧ vstart < r.2 := by
  intro fuel
  induction fuel with
  | zero => intro search_pos r hr; simp [findOccGo] at hr
  | succ fuel ih =>
    intro search_pos r hr
    rw [findOccGo] at hr
    cases hfm : firstMatch ((sliceBytes buf ss se).drop search_pos) word with
    | none => rw [hfm] at hr; simp at hr
    | some rel =>
      rw [hfm] at hr
      simp only [List.mem_append] at hr
      rcases hr with hr | hr
      · -- the head occurrence, kept only when all four checks pass
        split at hr
        case isTrue hkeep =>
          simp only [List.mem_singleton] at hr
          subst hr
          have hcontent : sliceBytes buf (ss + search_pos + rel)
              (ss + search_pos + rel + word.length) = word := by
            by_cases hw : word = []
            · subst hw
              simp [sliceBytes_eq_drop_take]
            · have hpre := firstMatch_isPrefixOf word _ _ hfm
              rw [List.drop_drop] at hpre
              obtain ⟨hc, _⟩ := prefix_in_slice buf ss se (search_pos + rel) word hw hse hpre
              have habs : ss + (search_pos + rel) = ss + search_pos + rel := by omega
              rw [habs] at hc
              exact hc
          simp only [Bool.and_eq_true, Bool.or_eq_true, decide_eq_true_eq] at hkeep
          obtain ⟨⟨⟨hws, hwe⟩, hlt⟩, hgt⟩ := hkeep
          refine ⟨hcontent, rfl, ?_, ?_, hlt, hgt⟩
          · intro hpos hle
            rcases hws with hz | hws
            · omega
            · rw [sliceBytes_head buf _ _ (by omega) (by omega)] at hws
              simpa using hws
          · intro hlt2
            rcases hwe with hge | hwe
            · omega
            · rw [sliceBytes_head buf _ _ (by omega) (by omega)] at hwe
              simpa using hwe
        case isFalse hkeep => simp at hr
      · exact ih (search_pos + rel + 1) r hr

/-- If the byte at the cursor (when it exists) and the byte before the
cursor (when it exists) are both non-word characters, the cursor is on no
word and immediately after no word, and `get_word_at_position` finds
nothing. -/
theorem get_word_at_position_none (iwc : Nat → Bool) (fws fwe : List Nat → Nat → Nat)
    (buf : List Nat) (pos : Nat)
    (hat : pos < buf.length → iwc (buf.getD pos 0) = false)
    (hbefore : 0 < pos → pos ≤ buf.length → iwc (buf.getD (pos - 1) 0) = false) :
    get_word_at_position iwc fws fwe buf pos = none := by
  unfold get_word_at_position
  by_cases hgt : pos > buf.length
  · simp [hgt]
  · simp only [hgt, if_false]
    push_neg at hgt
    have hon : (if pos < buf.length then
          ((sliceBytes buf pos (pos + 1)).head?.map iwc).getD false
        else if pos > 0 then
          ((sliceBytes buf (pos - 1) pos).head?.map iwc).getD false
        else false) = false := by
      by_cases hlt : pos < buf.length
      · rw [if_pos hlt, sliceBytes_head buf pos (pos + 1) hlt (by omega)]
        simpa using hat hlt
      · rw [if_neg hlt]
        by_cases hpos : pos > 0
        · rw [if_pos hpos, sliceBytes_head buf (pos - 1) pos (by omega) (by omega)]
          simpa using hbefore hpos hgt
        · rw [if_neg hpos]
    rw [hon]
    by_cases hpos : 0 < pos
    · have hafter : ((sliceBytes buf (pos - 1) pos).head?.map iwc).getD false = false := by
        rw [sliceBytes_head buf (pos - 1) pos (by omega) (by omega)]
        simpa using hbefore hpos hgt
      simp [hpos, hafter]
    · simp [hpos]

/-- C9: every span returned by `highlight_occurrences` carries the
highlighter's color and covers a whole-word occurrence of the word under
the cursor — its bytes equal the word's bytes, the byte before the span
start and the byte at the span end, when they exist, are not word
characters — and its byte range overlaps `[viewport_start, viewport_end)`;
the result is empty whenever the highlighter is disabled, whenever neither
the byte at the cursor nor the byte before it is a word character (cursor
not on and not immediately after a word), and whenever the word's byte
length is below `min_word_length`. -/
theorem highlight_occurrences_sound (h : SemanticHighlighter) (iwc : Nat → Bool)
    (fws fwe : List Nat → Nat → Nat) (buf : List Nat) (pos vs ve : Nat) :
    (∀ sp ∈ highlight_occurrences h iwc fws fwe buf pos vs ve,
      ∃ ws we, get_word_at_position iwc fws fwe buf pos = some (ws, we) ∧
        sp.color = h.highlight_color ∧
        sliceBytes buf sp.start sp.stop = sliceBytes buf ws we ∧
        sp.stop = sp.start + (sliceBytes buf ws we).length ∧
        (0 < sp.start → sp.start ≤ buf.length → iwc (buf.getD (sp.start - 1) 0) = false) ∧
        (sp.stop < buf.length → iwc (buf.getD sp.stop 0) = false) ∧
        sp.start < ve ∧ vs < sp.stop) ∧
    (h.enabled = false → highlight_occurrences h iwc fws fwe buf pos vs ve = []) ∧
    ((pos < buf.length → iwc (buf.getD pos 0) = false) →
      (0 < pos → pos ≤ buf.length → iwc (buf.getD (pos - 1) 0) = false) →
      highlight_occurrences h iwc fws fwe buf pos vs ve = []) ∧
    (∀ ws we, get_word_at_position iwc fws fwe buf pos = some (ws, we) →
      (sliceBytes buf ws we).length < h.min_word_length →
      highlight_occurrences h iwc fws fwe buf pos vs ve = []) := by
  refine ⟨?_, ?_, ?_, ?_⟩
  · intro sp hsp
    rw [highlight_occurrences] at hsp
    by_cases hen : h.enabled
    · simp only [hen, Bool.not_true, Bool.false_eq_true, if_false] at hsp
      cases hg : get_word_at_position iwc fws fwe buf pos with
      | none => rw [hg] at hsp; simp at hsp
      | some p =>
        obtain ⟨ws, we⟩ := p
        rw [hg] at hsp
        simp only at hsp
        by_cases hv : utf8Valid (sliceBytes buf ws we)
        · simp only [hv, Bool.not_true, Bool.false_eq_true, if_false] at hsp
          by_cases hmin : (sliceBytes buf ws we).length < h.min_word_length
          · simp [hmin] at hsp
          · simp only [hmin, if_false] at hsp
            rw [find_occurrences_in_range] at hsp
            by_cases hvt : utf8Valid (sliceBytes buf
                (vs - (sliceBytes buf ws we).length)
                (min (ve + (sliceBytes buf ws we).length) buf.length))
            · simp only [hvt, if_true, List.mem_map] at hsp
              obtain ⟨r, hr, hsp⟩ := hsp
              have hprops := findOccGo_sound iwc buf (sliceBytes buf ws we) vs ve
                (vs - (sliceBytes buf ws we).length)
                (min (ve + (sliceBytes buf ws we).length) buf.length)
                (Nat.min_le_right _ _) _ _ r hr
              obtain ⟨hcont, hstop, hbefore, hafter, hlt, hgt⟩ := hprops
              refine ⟨ws, we, rfl, ?_, ?_, ?_, ?_, ?_, ?_, ?_⟩ <;>
                first
                  | exact (by subst hsp; rfl)
                  | (subst hsp; first
                      | exact hcont
                      | exact hstop
                      | exact hbefore
                      | exact hafter
                      | exact hlt
                      | exact hgt)
            · simp [hvt] at hsp
        · simp [hv] at hsp
    · simp [hen] at hsp
  · intro hen
    rw [highlight_occurrences, hen]
    rfl
  · intro hat hbefore
    rw [highlight_occurrences, get_word_at_position_none iwc fws fwe buf pos hat hbefore]
    by_cases hen : h.enabled <;> simp [hen]
  · intro ws we hg hmin
    rw [highlight_occurrences, hg]
    by_cases hen : h.enabled
    · simp only [hen, Bool.not_true, Bool.false_eq_true, if_false]
      by_cases hv : utf8Valid (sliceBytes buf ws we)
      · simp [hv, hmin]
      · simp [hv]
    · simp [hen]

/-- Witness for `highlight_occurrences_sound`: on the buffer
`"foo bar foo"` with the cursor at 0, the returned span `8..11` holds the
same bytes as the word under the cursor; a disabled highlighter, a cursor
on the leading space of `" foo"`, and a one-byte word under the default
minimum length 2 all yield the empty result. -/
theorem highlight_occurrences_sound_witness :
    (∃ ws we,
      get_word_at_position isWordCharDefault findWordStartDefault findWordEndDefault
          (("foo bar foo".data).map Char.toNat) 0 = some (ws, we) ∧
        sliceBytes (("foo bar foo".data).map Char.toNat) 8 11
          = sliceBytes (("foo bar foo".data).map Char.toNat) ws we) ∧
    highlight_occurrences { highlight_color := 0, min_word_length := 2, enabled := false }
      isWordCharDefault findWordStartDefault findWordEndDefault
      (("foo bar foo".data).map Char.toNat) 0 0 11 = [] ∧
    highlight_occurrences SemanticHighlighter.new isWordCharDefault findWordStartDefault
      findWordEndDefault ((" foo".data).map Char.toNat) 0 0 4 = [] ∧
    highlight_occurrences SemanticHighlighter.new isWordCharDefault findWordStartDefault
      findWordEndDefault (("a b a".data).map Char.toNat) 0 0 5 = [] := by
  have h1 := (highlight_occurrences_sound SemanticHighlighter.new isWordCharDefault
    findWordStartDefault findWordEndDefault (("foo bar foo".data).map Char.toNat) 0 0 11).1
    ⟨8, 11, 0⟩ (by decide)
  obtain ⟨ws, we, hg, _, hc, _⟩ := h1
  refine ⟨⟨ws, we, hg, hc⟩, ?_, ?_, ?_⟩
  · exact (highlight_occurrences_sound _ _ _ _ _ _ _ _).2.1 rfl
  · exact (highlight_occurrences_sound _ _ _ _ _ _ _ _).2.2.1 (by decide) (by decide)
  · exact (highlight_occurrences_sound _ _ _ _ _ _ _ _).2.2.2 0 1 (by decide) (by decide)

/-! ## i18n runtime backend (`crates/fresh-editor/src/i18n/runtime_backend.rs`)

`flatten_json` and `translate` are embedded from the Rust source.  The 14
embedded locale JSON files themselves are outside this slice, so the
theorems quantify over arbitrary parsed contents paired with the fixed 14
locale names.  The Rust code inserts flattened pairs into a `HashMap`;
whether a key is present (all the claim speaks about) is unaffected by
modelling the map as an association list.  Lazy loading behind the
`RwLock` is stateless-equivalent to parsing on demand and is omitted. -/

/-- A parsed JSON value (`serde_json::Value`); numbers are opaque. -/
inductive Json where
  | null
  | bool (b : Bool)
  | num (n : Int)
  | str (s : String)
  | arr (xs : List Json)
  | obj (fields : List (String × Json))

/-- Rust's `key.starts_with('_')` (runtime_backend.rs:89): does the first
character exist and equal `'_'`? -/
def startsWithUnderscore (k : String) : Bool :=
  match k.data with
  | [] => false
  | c :: _ => c = '_'

/-- The prefix-joining rule of `flatten_json` (runtime_backend.rs:92-96):
an empty prefix is replaced by the key, otherwise a dot is interposed. -/
def joinKey (pfx k : String) : String := if pfx = "" then k else pfx ++ "." ++ k

mutual

/-- `flatten_json` (runtime_backend.rs:85-112): recursively flatten nested
objects with dot notation, skipping keys that start with `_`, and emit
`(flattened key, value)` pairs for string leaves; other leaves produce
nothing. -/
def flatten_json : Json → String → List (String × String)
  | .obj fields, pfx => flattenFields fields pfx
  | .str s, pfx => [(pfx, s)]
  | _, _ => []

/-- The object-field loop of `flatten_json`. -/
def flattenFields : List (String × Json) → String → List (String × String)
  | [], _ => []
  | (k, v) :: rest, pfx =>
    (if startsWithUnderscore k then [] else flatten_json v (joinKey pfx k)) ++ flattenFields rest pfx

end

/-- `parse_locale` (runtime_backend.rs:77-82): flatten a locale's JSON
starting from the empty prefix. -/
def parse_locale (j : Json) : List (String × String) := flatten_json j ""

/-- The locale ids of `EMBEDDED_LOCALES` (runtime_backend.rs:12-69). -/
def EMBEDDED_LOCALE_NAMES : List String :=
  ["cs", "de", "en", "es", "fr", "it", "ja", "ko", "pt-BR", "ru", "th", "uk", "vi", "zh-CN"]

/-- `RuntimeBackend::translate` (runtime_backend.rs:145-149) over given
embedded contents: find the locale among the embedded pairs, parse it, and
look the key up in the flattened table; unknown locales and keys give
`None`. -/
def translate (contents : List (String × Json)) (locale key : String) : Option String :=
  match contents.lookup locale with
  | some j => (parse_locale j).lookup key
  | none => none

/-- A string leaf of a JSON value at a path of object keys, none of which
starts with an underscore. -/
inductive StringLeaf : Json → List String → String → Prop
  | str (s : String) : StringLeaf (.str s) [] s
  | obj {fields : List (String × Json)} {k : String} {v : Json} {p : List String} {s : String} :
      (k, v) ∈ fields → startsWithUnderscore k = false → StringLeaf v p s →
      StringLeaf (.obj fields) (k :: p) s

/-- The flattened key of a path below a prefix, by `flatten_json`'s
joining rule. -/
def foldJoin (pfx : String) (p : List String) : String := p.foldl joinKey pfx

/-- The claim's "dot-joined path": path components joined with `"."`. -/
def dotJoin : List String → String
  | [] => ""
  | [c] => c
  | c :: rest => c ++ "." ++ dotJoin rest

theorem lookup_append_isSome (a b : List (String × String)) (key : String) :
    (((a ++ b).lookup key).isSome) = (((a.lookup key).isSome) || ((b.lookup key).isSome)) := by
  induction a with
  | nil => simp
  | cons kv rest ih =>
    obtain ⟨k, v⟩ := kv
    by_cases h : (key == k) = true
    · simp [List.lookup, h]
    · simpa [List.lookup, h] using ih

mutual

theorem flatten_json_lookup (j : Json) (pfx key : String) :
    ((flatten_json j pfx).lookup key).isSome = true ↔
      ∃ p s, StringLeaf j p s ∧ key = foldJoin pfx p :=
  match j with
  | .obj fields => by
    rw [show flatten_json (.obj fields) pfx = flattenFields fields pfx from rfl,
      flattenFields_lookup fields pfx key]
    constructor
    · rintro ⟨k, v, p, s, hmem, hus, hsl, hkey⟩
      exact ⟨k :: p, s, .obj hmem hus hsl, hkey⟩
    · rintro ⟨p, s, hsl, hkey⟩
      cases hsl with
      | obj hmem hus hsl' => exact ⟨_, _, _, _, hmem, hus, hsl', hkey⟩
  | .str s => by
    constructor
    · intro h
      have hk : key = pfx := by
        simp only [flatten_json, List.lookup, List.lookup_nil] at h
        by_cases hkp : (key == pfx) = true
        · exact eq_of_beq hkp
        · simp [hkp] at h
      exact ⟨[], s, .str s, hk⟩
    · rintro ⟨p, s', hsl, hkey⟩
      cases hsl
      subst hkey
      simp [flatten_json, List.lookup, foldJoin]
  | .null => by
    simp only [flatten_json, List.lookup_nil, Option.isSome_none, Bool.false_eq_true,
      false_iff]
    rintro ⟨p, s, hsl, -⟩
    cases hsl
  | .bool b => by
    simp only [flatten_json, List.lookup_nil, Option.isSome_none, Bool.false_eq_true,
      false_iff]
    rintro ⟨p, s, hsl, -⟩
    cases hsl
  | .num n => by
    simp only [flatten_json, List.lookup_nil, Option.isSome_none, Bool.false_eq_true,
      false_iff]
    rintro ⟨p, s, hsl, -⟩
    cases hsl
  | .arr xs => by
    simp only [flatten_json, List.lookup_nil, Option.isSome_none, Bool.false_eq_true,
      false_iff]
    rintro ⟨p, s, hsl, -⟩
    cases hsl

theorem flattenFields_lookup (fs : List (String × Json)) (pfx key : String) :
    ((flattenFields fs pfx).lookup key).isSome = true ↔
      ∃ k v p s, (k, v) ∈ fs ∧ startsWithUnderscore k = false ∧ StringLeaf v p s ∧
        key = foldJoin (joinKey pfx k) p :=
  match fs with
  | [] => by
    simp only [flattenFields, List.lookup_nil, Option.isSome_none, Bool.false_eq_true,
      false_iff]
    rintro ⟨k, v, p, s, hmem, -⟩
    simp at hmem
  | (k, v) :: rest => by
    rw [show flattenFields ((k, v) :: rest) pfx
        = (if startsWithUnderscore k then [] else flatten_json v (joinKey pfx k))
          ++ flattenFields rest pfx from rfl]
    rw [show (((if startsWithUnderscore k then [] else flatten_json v (joinKey pfx k))
          ++ flattenFields rest pfx).lookup key).isSome
        = (((if startsWithUnderscore k then ([] : List (String × String))
            else flatten_json v (joinKey pfx k)).lookup key).isSome
          || ((flattenFields rest pfx).lookup key).isSome) from
      lookup_append_isSome _ _ _]
    by_cases hu : startsWithUnderscore k
    · simp only [hu, if_true, List.lookup_nil, Option.isSome_none, Bool.false_or]
      rw [flattenFields_lookup rest pfx key]
      constructor
      · rintro ⟨k', v', p, s, hmem, hus, hsl, hkey⟩
        exact ⟨k', v', p, s, List.mem_cons_of_mem _ hmem, hus, hsl, hkey⟩
      · rintro ⟨k', v', p, s, hmem, hus, hsl, hkey⟩
        rcases List.mem_cons.mp hmem with heq | hmem'
        · cases heq
          rw [hu] at hus
          cases hus
        · exact ⟨k', v', p, s, hmem', hus, hsl, hkey⟩
    · simp only [hu, Bool.false_eq_true, if_false, Bool.or_eq_true]
      rw [flatten_json_lookup v (joinKey pfx k) key, flattenFields_lookup rest pfx key]
      constructor
      · rintro (⟨p, s, hsl, hkey⟩ | ⟨k', v', p, s, hmem, hus, hsl, hkey⟩)
        · exact ⟨k, v, p, s, List.mem_cons_self _ _, Bool.of_not_eq_true hu, hsl, hkey⟩
        · exact ⟨k', v', p, s, List.mem_cons_of_mem _ hmem, hus, hsl, hkey⟩
      · rintro ⟨k', v', p, s, hmem, hus, hsl, hkey⟩
        rcases List.mem_cons.mp hmem with heq | hmem'
        · obtain ⟨hk, hv⟩ := Prod.mk.injEq .. ▸ heq
          subst hk
          subst hv
          exact Or.inl ⟨p, s, hsl, hkey⟩
        · exact Or.inr ⟨k', v', p, s, hmem', hus, hsl, hkey⟩

end

theorem foldJoin_dotJoin_aux (p : List String) : ∀ pfx : String, pfx ≠ "" →
    foldJoin pfx p = dotJoin (pfx :: p) := by
  induction p with
  | nil => intro pfx hpfx; rfl
  | cons c rest ih =>
    intro pfx hpfx
    have hjoin : joinKey pfx c = pfx ++ "." ++ c := by
      simp [joinKey, hpfx]
    have hne : pfx ++ "." ++ c ≠ "" := by
      intro h
      have hlen := congrArg String.length h
      rw [String.length_append, String.length_append] at hlen
      have hdot : (".").length = 1 := rfl
      have hemp : ("" : String).length = 0 := rfl
      omega
    have hstep : foldJoin pfx (c :: rest) = foldJoin (joinKey pfx c) rest := rfl
    rw [hstep, hjoin, ih (pfx ++ "." ++ c) hne]
    cases rest with
    | nil => rfl
    | cons d ds =>
      show (pfx ++ "." ++ c) ++ "." ++ dotJoin (d :: ds)
        = pfx ++ "." ++ (c ++ "." ++ dotJoin (d :: ds))
      simp [String.append_assoc]

/-- On paths with no empty component, `flatten_json`'s key joining is the
plain dot join. -/
theorem foldJoin_eq_dotJoin (p : List String) (hp : ∀ c ∈ p, c ≠ "") :
    foldJoin "" p = dotJoin p := by
  cases p with
  | nil => rfl
  | cons c rest =>
    have hc : c ≠ "" := hp c (by simp)
    have hstep : foldJoin "" (c :: rest) = foldJoin c rest := by
      simp [foldJoin, joinKey]
    rw [hstep, foldJoin_dotJoin_aux rest c hc]

/-- C10: `translate(locale, key)` succeeds iff `locale` is one of the 14
embedded locales and `key` is the flattened path of a string leaf of that
locale's JSON none of whose path components starts with an underscore; for
any other locale or key (metadata `_`-keys and non-string leaves included)
it returns `None` — `translate` is total, so it never fails.  On paths
without empty components (every real locale file) the flattened path is
exactly the claim's dot-joined path. -/
theorem translate_some_iff (contents : List (String × Json))
    (hnames : contents.map Prod.fst = EMBEDDED_LOCALE_NAMES) (locale key : String) :
    (((translate contents locale key).isSome = true) ↔
      (locale ∈ EMBEDDED_LOCALE_NAMES ∧
        ∃ j p s, contents.lookup locale = some j ∧ StringLeaf j p s ∧
          key = foldJoin "" p)) ∧
    (∀ p : List String, (∀ c ∈ p, c ≠ "") → foldJoin "" p = dotJoin p) := by
  refine ⟨?_, foldJoin_eq_dotJoin⟩
  cases hl : contents.lookup locale with
  | none =>
    have hmem : locale ∉ EMBEDDED_LOCALE_NAMES := by
      rw [← hnames]
      intro hmem
      obtain ⟨⟨a, b⟩, hab, heq⟩ := List.mem_map.mp hmem
      have : (contents.lookup locale).isSome := by
        refine List.lookup_isSome_iff.mpr ⟨(a, b), hab, ?_⟩
        simpa using heq.symm
      rw [hl] at this
      cases this
    simp [translate, hl, hmem]
  | some j =>
    have hmem : locale ∈ EMBEDDED_LOCALE_NAMES := by
      rw [← hnames]
      have hsome : (contents.lookup locale).isSome := by rw [hl]; rfl
      obtain ⟨⟨a, b⟩, hab, heq⟩ := List.lookup_isSome_iff.mp hsome
      exact List.mem_map.mpr ⟨(a, b), hab, (eq_of_beq heq).symm⟩
    have htr : translate contents locale key = (flatten_json j "").lookup key := by
      simp [translate, hl, parse_locale]
    rw [htr, flatten_json_lookup j "" key]
    constructor
    · rintro ⟨p, s, hsl, hkey⟩
      exact ⟨hmem, j, p, s, rfl, hsl, hkey⟩
    · rintro ⟨-, j', p, s, hj', hsl, hkey⟩
      cases hj'
      exact ⟨p, s, hsl, hkey⟩

/-- Witness for `translate_some_iff`: with every locale's content being
`{"action": {"copy": "Copy"}, "_version": "1"}`, the locale `"en"`
translates `"action.copy"`, while the metadata key `"_version"`, an
unknown key, and an unknown locale give `None`. -/
theorem translate_some_iff_witness :
    (translate (EMBEDDED_LOCALE_NAMES.map fun n =>
        (n, Json.obj [("action", .obj [("copy", .str "Copy")]), ("_version", .str "1")]))
      "en" "action.copy").isSome = true ∧
    (translate (EMBEDDED_LOCALE_NAMES.map fun n =>
        (n, Json.obj [("action", .obj [("copy", .str "Copy")]), ("_version", .str "1")]))
      "en" "_version") = none ∧
    (translate (EMBEDDED_LOCALE_NAMES.map fun n =>
        (n, Json.obj [("action", .obj [("copy", .str "Copy")]), ("_version", .str "1")]))
      "xx" "action.copy") = none ∧
    foldJoin "" ["action", "copy"] = dotJoin ["action", "copy"] := by
  have hnames : (EMBEDDED_LOCALE_NAMES.map fun n =>
      (n, Json.obj [("action", .obj [("copy", .str "Copy")]), ("_version", .str "1")])).map
        Prod.fst = EMBEDDED_LOCALE_NAMES := by
    simp [EMBEDDED_LOCALE_NAMES]
  have h := translate_some_iff (EMBEDDED_LOCALE_NAMES.map fun n =>
    (n, Json.obj [("action", .obj [("copy", .str "Copy")]), ("_version", .str "1")]))
    hnames "en" "action.copy"
  have hleaf : StringLeaf
      (Json.obj [("action", .obj [("copy", .str "Copy")]), ("_version", .str "1")])
      ["action", "copy"] "Copy" :=
    @StringLeaf.obj [("action", .obj [("copy", .str "Copy")]), ("_version", .str "1")]
      "action" (.obj [("copy", .str "Copy")]) ["copy"] "Copy"
      (by simp) (by decide)
      (@StringLeaf.obj [("copy", .str "Copy")] "copy" (.str "Copy") [] "Copy"
        (by simp) (by decide) (.str "Copy"))
  refine ⟨h.1.mpr ⟨by simp [EMBEDDED_LOCALE_NAMES],
    Json.obj [("action", .obj [("copy", .str "Copy")]), ("_version", .str "1")],
    ["action", "copy"], "Copy", ?_, hleaf, ?_⟩, ?_, ?_,
    h.2 ["action", "copy"] (by simp)⟩
  · simp [EMBEDDED_LOCALE_NAMES, List.lookup]
  · rfl
  · simp [translate, EMBEDDED_LOCALE_NAMES, List.lookup, parse_locale, flatten_json,
      flattenFields, startsWithUnderscore, joinKey]
  · simp [translate, EMBEDDED_LOCALE_NAMES, List.lookup]

end Fresh
